import Mathlib

set_option maxRecDepth 100000
set_option maxHeartbeats 400000

/-!
Verification of the Gimli crypto core (`gimli-crypto`): the 24-round Gimli
permutation (portable scalar, SSE2 and NEON back-ends), the sponge AEAD
(`aead/gimli24v1`) and the sponge hash (`hash/gimli24v1`).

The embedding is byte- and word-level over `List Nat`:
a Gimli state is 12 unsigned 32-bit words (each a `Nat` reduced mod 2^32),
with the aliased 48-byte view given by explicit little-endian conversions,
exactly as `State::as_bytes` exposes the word array in `src/gimli.rs`.
-/

namespace GimliCrypto

/-! ## Constants (`src/lib.rs`, `src/gimli.rs`, `src/hash_impl.rs`) -/

/-- Gimli nonce size in bytes (`NONCE_SIZE`). -/
abbrev NONCE_SIZE : Nat := 16

/-- Gimli key size in bytes (`KEY_SIZE`). -/
abbrev KEY_SIZE : Nat := 32

/-- Gimli tag size in bytes (`TAG_SIZE`). -/
abbrev TAG_SIZE : Nat := 16

/-- Gimli rate in bytes (`RATE`). -/
abbrev RATE : Nat := 16

/-- Gimli state size in bytes (`STATE_SIZE`). -/
abbrev STATE_SIZE : Nat := 48

/-- Last byte index of the state, used for domain separation (`STATE_LAST_BYTE`). -/
abbrev STATE_LAST_BYTE : Nat := STATE_SIZE - 1

/-- Number of rounds in the Gimli permutation (`ROUNDS`). -/
abbrev ROUNDS : Nat := 24

/-- Round constant of the permutation (`ROUND_CONSTANT`). -/
abbrev ROUND_CONSTANT : Nat := 0x9e377900

/-- Hash output size in bytes (`HASH_SIZE` in `src/hash_impl.rs`). -/
abbrev HASH_SIZE : Nat := 32

/-- Hash domain separation byte (`DOMAIN_XOF` in `src/hash_impl.rs`). -/
abbrev DOMAIN_XOF : Nat := 0x1f

/-- Hash padding marker byte (`PADDING_MARKER` in `src/hash_impl.rs`). -/
abbrev PADDING_MARKER : Nat := 0x80

/-! ## 32-bit word arithmetic

Rust `u32` values are embedded as `Nat` below `2^32`; wrapping left shifts
reduce mod `2^32` and `u32::rotate_left` is expressed through shifts, which
is also literally how the SIMD back-ends compute it. -/

/-- Truncating (wrapping) left shift on 32-bit words, Rust `<<` on `u32`. -/
def shl32 (w k : Nat) : Nat := (w <<< k) % 4294967296

/-- The 32-bit left rotation, Rust `u32::rotate_left`: for `w < 2^32` the rotated
word is the truncated left shift OR-ed with the complementary right shift. -/
def rotl32 (w k : Nat) : Nat := shl32 w k ||| (w >>> (32 - k))

/-! ## Portable Gimli permutation (`src/gimli/portable.rs`)

The state is the list of 12 words `state.0`; `List.getD`/`List.set` model
array indexing and in-place update. -/

/-- One SP-box application to column `column` of the word state
(`src/gimli/portable.rs` lines 12-20). The three reads happen before the
three disjoint writes, exactly as in the source. -/
def spColumn (s : List Nat) (column : Nat) : List Nat :=
  let x := rotl32 (s.getD column 0) 24
  let y := rotl32 (s.getD (4 + column) 0) 9
  let z := s.getD (8 + column) 0
  ((s.set (8 + column) (x ^^^ shl32 z 1 ^^^ shl32 (y &&& z) 2)).set
      (4 + column) (y ^^^ x ^^^ shl32 (x ||| z) 1)).set
    column (z ^^^ y ^^^ shl32 (x &&& y) 3)

/-- Swap two words, `state.0.swap i j`: read both words, then write both. -/
def listSwap (s : List Nat) (i j : Nat) : List Nat :=
  (s.set i (s.getD j 0)).set j (s.getD i 0)

/-- One round of the portable Gimli permutation: SP-box on all four columns,
small swap and big swap on row 0, round-constant injection
(`src/gimli/portable.rs` lines 10-37). -/
def gimliRound (round : Nat) (s : List Nat) : List Nat :=
  let s1 := spColumn (spColumn (spColumn (spColumn s 0) 1) 2) 3
  let s2 := if round % 4 = 0 then listSwap (listSwap s1 0 1) 2 3 else s1
  let s3 := if round % 4 = 2 then listSwap (listSwap s2 0 2) 1 3 else s2
  if round % 4 = 0 then s3.set 0 (s3.getD 0 0 ^^^ (ROUND_CONSTANT ||| round)) else s3

/-- Descending round loop: `for round in (1..=ROUNDS).rev()` — round `n`
runs first, then rounds `n-1` down to `1`. -/
def gimliAux : Nat → List Nat → List Nat
  | 0, s => s
  | n + 1, s => gimliAux n (gimliRound (n + 1) s)

/-- The portable Gimli permutation on the 12-word state
(`src/gimli/portable.rs`, `gimli`). -/
def gimli (s : List Nat) : List Nat := gimliAux ROUNDS s

/-! ## The aliased 48-byte view of the state (`State::as_bytes`)

`[u32; 12]` and `[u8; 48]` share storage; on the little-endian targets the
SIMD back-ends exist for, byte `4*i + j` of the state is byte `j` (LSB first)
of word `i`. -/

/-- Little-endian bytes of one 32-bit word. -/
def wordToBytes (w : Nat) : List Nat :=
  [w % 256, w / 256 % 256, w / 65536 % 256, w / 16777216 % 256]

/-- The 48-byte view of a 12-word state. -/
def wordsToBytes (ws : List Nat) : List Nat := (ws.map wordToBytes).flatten

/-- Pack the 48-byte view back into the 12 little-endian words. -/
def bytesToWords (bs : List Nat) : List Nat :=
  (List.range 12).map fun i =>
    bs.getD (4 * i) 0 + 256 * bs.getD (4 * i + 1) 0 +
      65536 * bs.getD (4 * i + 2) 0 + 16777216 * bs.getD (4 * i + 3) 0

/-- The Gimli permutation acting on the 48-byte view of the state: the sponge
code mutates bytes, then `gimli(&mut state)` permutes the aliased words. -/
def gimliBytes (bs : List Nat) : List Nat := wordsToBytes (gimli (bytesToWords bs))

/-! ## SIMD back-ends (`src/gimli/sse2.rs`, `src/gimli/neon.rs`)

Both back-ends hold the three state rows in 128-bit vectors of four 32-bit
lanes; `Row4` models one such vector, lane 0 first. -/

/-- One 128-bit SIMD register as four 32-bit lanes (lane 0 = lowest word). -/
structure Row4 where
  l0 : Nat
  l1 : Nat
  l2 : Nat
  l3 : Nat

/-- Lane-wise XOR, `_mm_xor_si128` / `veorq_u32`. -/
def vxor (a b : Row4) : Row4 :=
  ⟨a.l0 ^^^ b.l0, a.l1 ^^^ b.l1, a.l2 ^^^ b.l2, a.l3 ^^^ b.l3⟩

/-- Lane-wise AND, `_mm_and_si128` / `vandq_u32`. -/
def vand (a b : Row4) : Row4 :=
  ⟨a.l0 &&& b.l0, a.l1 &&& b.l1, a.l2 &&& b.l2, a.l3 &&& b.l3⟩

/-- Lane-wise OR, `_mm_or_si128` / `vorrq_u32`. -/
def vor (a b : Row4) : Row4 :=
  ⟨a.l0 ||| b.l0, a.l1 ||| b.l1, a.l2 ||| b.l2, a.l3 ||| b.l3⟩

/-- Lane-wise truncating left shift, `_mm_slli_epi32` / `vshlq_n_u32`. -/
def vshl (a : Row4) (k : Nat) : Row4 :=
  ⟨shl32 a.l0 k, shl32 a.l1 k, shl32 a.l2 k, shl32 a.l3 k⟩

/-- Lane-wise logical right shift, `_mm_srli_epi32` / `vshrq_n_u32`. -/
def vshr (a : Row4) (k : Nat) : Row4 :=
  ⟨a.l0 >>> k, a.l1 >>> k, a.l2 >>> k, a.l3 >>> k⟩

/-- Lane shuffle `[1,0,3,2]`, `_mm_shuffle_epi32(_, 0xB1)` and `vrev64q_u32`. -/
def shuffle1032 (a : Row4) : Row4 := ⟨a.l1, a.l0, a.l3, a.l2⟩

/-- Lane shuffle `[2,3,0,1]`, `_mm_shuffle_epi32(_, 0x4E)` and `vextq_u32(_, _, 2)`. -/
def shuffle2301 (a : Row4) : Row4 := ⟨a.l2, a.l3, a.l0, a.l1⟩

/-- Constant vector `_mm_set_epi32(0, 0, 0, c)` / `vsetq_lane_u32(c, vdupq_n_u32(0), 0)`:
the constant in lane 0, zeros elsewhere. -/
def constVec (c : Nat) : Row4 := ⟨c, 0, 0, 0⟩

/-- Load `state.0[0..4]`, `state.0[4..8]`, `state.0[8..12]` into row vectors. -/
def loadRows (s : List Nat) : Row4 × Row4 × Row4 :=
  (⟨s.getD 0 0, s.getD 1 0, s.getD 2 0, s.getD 3 0⟩,
   ⟨s.getD 4 0, s.getD 5 0, s.getD 6 0, s.getD 7 0⟩,
   ⟨s.getD 8 0, s.getD 9 0, s.getD 10 0, s.getD 11 0⟩)

/-- Store the three row vectors back to the 12-word state. -/
def storeRows (v : Row4 × Row4 × Row4) : List Nat :=
  [v.1.l0, v.1.l1, v.1.l2, v.1.l3,
   v.2.1.l0, v.2.1.l1, v.2.1.l2, v.2.1.l3,
   v.2.2.l0, v.2.2.l1, v.2.2.l2, v.2.2.l3]

/-- One round of the SSE2 implementation (`src/gimli/sse2.rs` lines 31-69):
SP-box on all four columns in parallel, then — inside one branch — the small
swap shuffle immediately followed by the round-constant XOR, then the big
swap shuffle in its own branch. -/
def sse2Round (round : Nat) (v : Row4 × Row4 × Row4) : Row4 × Row4 × Row4 :=
  let x := vor (vshl v.1 24) (vshr v.1 8)
  let y := vor (vshl v.2.1 9) (vshr v.2.1 23)
  let z := v.2.2
  let row2 := vxor x (vxor (vshl z 1) (vshl (vand y z) 2))
  let row1 := vxor (vxor y x) (vshl (vor x z) 1)
  let row0 := vxor (vxor z y) (vshl (vand x y) 3)
  let row0 := if round % 4 = 0 then
      vxor (shuffle1032 row0) (constVec (ROUND_CONSTANT ||| round))
    else row0
  let row0 := if round % 4 = 2 then shuffle2301 row0 else row0
  (row0, row1, row2)

/-- Descending round loop of the SSE2 implementation. -/
def sse2Aux : Nat → Row4 × Row4 × Row4 → Row4 × Row4 × Row4
  | 0, v => v
  | n + 1, v => sse2Aux n (sse2Round (n + 1) v)

/-- The SSE2 Gimli permutation on the 12-word state: load rows, run the 24
rounds, store rows (`src/gimli/sse2.rs`, `gimli`). -/
def sse2Gimli (s : List Nat) : List Nat := storeRows (sse2Aux ROUNDS (loadRows s))

/-- One round of the NEON implementation (`src/gimli/neon.rs` lines 34-71):
SP-box in parallel, then small swap (`vrev64q_u32`), big swap (`vextq_u32`),
and the round-constant XOR in a separate branch after both swaps. -/
def neonRound (round : Nat) (v : Row4 × Row4 × Row4) : Row4 × Row4 × Row4 :=
  let x := vor (vshl v.1 24) (vshr v.1 8)
  let y := vor (vshl v.2.1 9) (vshr v.2.1 23)
  let z := v.2.2
  let row2 := vxor x (vxor (vshl z 1) (vshl (vand y z) 2))
  let row1 := vxor (vxor y x) (vshl (vor x z) 1)
  let row0 := vxor (vxor z y) (vshl (vand x y) 3)
  let row0 := if round % 4 = 0 then shuffle1032 row0 else row0
  let row0 := if round % 4 = 2 then shuffle2301 row0 else row0
  let row0 := if round % 4 = 0 then vxor row0 (constVec (0x9e377900 ||| round)) else row0
  (row0, row1, row2)

/-- Descending round loop of the NEON implementation. -/
def neonAux : Nat → Row4 × Row4 × Row4 → Row4 × Row4 × Row4
  | 0, v => v
  | n + 1, v => neonAux n (neonRound (n + 1) v)

/-- The NEON Gimli permutation on the 12-word state
(`src/gimli/neon.rs`, `gimli`). -/
def neonGimli (s : List Nat) : List Nat := storeRows (neonAux ROUNDS (loadRows s))

/-! ## Byte-level sponge helpers

The sponge code in `aead_impl.rs` and `hash_impl.rs` mutates the 48-byte
view: `for i in 0..d.len() { state_bytes[i] ^= d[i] }` and single-byte XORs.
-/

/-- XOR a block `d` into the first `d.length` bytes of `s`, leaving the rest
unchanged: the absorption loop `state_bytes[i] ^= d[i]`. -/
def xorInto (s d : List Nat) : List Nat :=
  List.zipWith Nat.xor (s.take d.length) d ++ s.drop d.length

/-- XOR the value `v` into byte `i` of `s`: `state_bytes[i] ^= v`. -/
def xorByteAt (s : List Nat) (i v : Nat) : List Nat :=
  s.set i (s.getD i 0 ^^^ v)

/-- The all-zero 48-byte state, `State::new()`. -/
def zeroState : List Nat := List.replicate STATE_SIZE 0

/-- Generic `chunks_exact(RATE)` loop, structurally recursive on a fuel
bound so that applications compute by reduction. While at least `RATE` bytes
remain, `step state block` processes one full block and returns
(new state, bytes emitted for this block); the loop returns
(concatenated emitted bytes, remainder of length `< RATE`, final state).
Every block loop of `aead_impl.rs` and `hash_impl.rs` is an instance. -/
def blockLoop (step : List Nat → List Nat → List Nat × List Nat) :
    Nat → List Nat → List Nat → List Nat × List Nat × List Nat
  | 0, s, msg => ([], msg, s)
  | fuel + 1, s, msg =>
    if RATE ≤ msg.length then
      let st := step s (msg.take RATE)
      let rest := blockLoop step fuel st.1 (msg.drop RATE)
      (st.2 ++ rest.1, rest.2.1, rest.2.2)
    else ([], msg, s)

/-- Run a block loop with enough fuel to consume the whole message. -/
def runBlocks (step : List Nat → List Nat → List Nat × List Nat)
    (s msg : List Nat) : List Nat × List Nat × List Nat :=
  blockLoop step msg.length s msg

/-- One absorption step: XOR the block into the rate, apply `gimli`, emit
nothing. Used by `process_aad` (`src/aead_impl.rs` lines 62-68) and `hash`
(`src/hash_impl.rs` lines 66-72), whose full-block loops are identical. -/
def absorbStep (s b : List Nat) : List Nat × List Nat :=
  (gimliBytes (xorInto s b), [])

/-- Absorb all full `RATE`-byte blocks of `msg` into state `s`, returning
the final state and the remainder block of length `< RATE`. -/
def absorbBlocks (s msg : List Nat) : List Nat × List Nat :=
  ((runBlocks absorbStep s msg).2.2, (runBlocks absorbStep s msg).2.1)

/-! ## AEAD (`src/aead_impl.rs`) -/

/-- Authentication tag verification failed (`AuthenticationFailed`),
the only error of the core. -/
inductive AuthenticationFailed where
  | mk

/-- Initialize the AEAD state: zero state, nonce copied into bytes `0..16`,
key into bytes `16..48`, then `gimli` (`src/aead_impl.rs`, `initialize`).
For a 16-byte nonce and a 32-byte key the filled state is `nonce ++ key`. -/
def initState (key nonce : List Nat) : List Nat := gimliBytes (nonce ++ key)

/-- Process associated data: absorb full blocks, XOR the remainder into the
rate, XOR `0x01` into the rate byte at the remainder length and into state
byte 47, then `gimli` (`src/aead_impl.rs`, `process_aad`). -/
def processAad (s ad : List Nat) : List Nat :=
  gimliBytes
    (xorByteAt
      (xorByteAt (xorInto (absorbBlocks s ad).1 (absorbBlocks s ad).2)
        (absorbBlocks s ad).2.length 1)
      STATE_LAST_BYTE 1)

/-- One encryption step on a full plaintext block: XOR the block into the
rate, emit the new rate as the ciphertext block, apply `gimli`
(`src/aead_impl.rs` lines 103-112). -/
def encStep (s b : List Nat) : List Nat × List Nat :=
  let s1 := xorInto s b
  (gimliBytes s1, s1.take RATE)

/-- Encrypt the full plaintext blocks of `buf`: returns (ciphertext of the
full blocks, plaintext remainder, final state). -/
def encBlocks (s buf : List Nat) : List Nat × List Nat × List Nat :=
  runBlocks encStep s buf

/-- Encrypt the final partial block and close the message: XOR the remainder
into the rate, emit the new rate bytes as the remainder ciphertext, XOR the
two `0x01` domain-separation bytes, apply `gimli`
(`src/aead_impl.rs` lines 114-125). Returns (remainder ciphertext, state). -/
def encFinish (s r : List Nat) : List Nat × List Nat :=
  let s1 := xorInto s r
  (s1.take r.length,
   gimliBytes (xorByteAt (xorByteAt s1 r.length 1) STATE_LAST_BYTE 1))

/-- Encrypt `buffer` in place with Gimli AEAD and return the pair
(ciphertext buffer, 16-byte tag) (`src/aead_impl.rs`, `encrypt_in_place`).
Encryption is a total function: it cannot fail. -/
def encrypt_in_place (key nonce ad buf : List Nat) : List Nat × List Nat :=
  let s0 := processAad (initState key nonce) ad
  let e := encBlocks s0 buf
  let f := encFinish e.2.2 e.2.1
  (e.1 ++ f.1, f.2.take TAG_SIZE)

/-- One decryption step on a full ciphertext block `c`: per byte, emit
`state XOR ciphertext` as plaintext and overwrite the rate byte with the
ciphertext byte, then apply `gimli` (`src/aead_impl.rs` lines 151-161). -/
def decStep (s c : List Nat) : List Nat × List Nat :=
  (gimliBytes (c ++ s.drop RATE), List.zipWith Nat.xor (s.take RATE) c)

/-- Decrypt the full ciphertext blocks of `buf`: returns (plaintext of the
full blocks, ciphertext remainder, final state). -/
def decBlocks (s buf : List Nat) : List Nat × List Nat × List Nat :=
  runBlocks decStep s buf

/-- Decrypt the final partial block: same byte-by-byte update for the
remainder, then the two `0x01` domain-separation XORs and `gimli`
(`src/aead_impl.rs` lines 163-175). Returns (remainder plaintext, state). -/
def decFinish (s r : List Nat) : List Nat × List Nat :=
  let p := List.zipWith Nat.xor (s.take r.length) r
  let s1 := r ++ s.drop r.length
  (p, gimliBytes (xorByteAt (xorByteAt s1 r.length 1) STATE_LAST_BYTE 1))

/-! ### Constant-time tag comparison

`decrypt_in_place` compares tags with `subtle::ConstantTimeEq::ct_eq`.
Modelled from the spec: the `subtle` crate is an external dependency, and
spec.md section 9 fixes the algorithm — XOR corresponding bytes, OR the
results into an accumulator, return whether the accumulator is zero, after
a public length check; no short-circuit on the first mismatch. The model
additionally counts the byte operations performed so that timing behaviour
is observable. -/

/-- Accumulator loop of the constant-time comparison: XOR each byte pair
into the accumulator and count one operation per pair. Returns
(final accumulator, number of byte operations executed). -/
def ctFold : List Nat → List Nat → Nat → Nat × Nat
  | [], _, acc => (acc, 0)
  | _, [], acc => (acc, 0)
  | x :: xs, y :: ys, acc =>
    let rest := ctFold xs ys (acc ||| (x ^^^ y))
    (rest.1, rest.2 + 1)

/-- Constant-time equality with an operation count: public length check
first, then the full accumulator loop. -/
def ctEqTrace (a b : List Nat) : Bool × Nat :=
  if a.length = b.length then
    let r := ctFold a b 0
    (r.1 == 0, r.2)
  else (false, 0)

/-- The boolean result of the constant-time comparison, `ct_eq(...).into()`. -/
def ctEq (a b : List Nat) : Bool := (ctEqTrace a b).1

/-- The tag recomputed by the decryption pipeline from key, nonce,
associated data and ciphertext buffer: the first 16 bytes of the state after
the final permutation (`src/aead_impl.rs` lines 144-178). -/
def decryptTag (key nonce ad buf : List Nat) : List Nat :=
  let s0 := processAad (initState key nonce) ad
  let d := decBlocks s0 buf
  ((decFinish d.2.2 d.2.1).2).take TAG_SIZE

/-- The plaintext the decryption loops write into the buffer
(`src/aead_impl.rs` lines 150-170). -/
def decryptPlain (key nonce ad buf : List Nat) : List Nat :=
  let s0 := processAad (initState key nonce) ad
  let d := decBlocks s0 buf
  d.1 ++ (decFinish d.2.2 d.2.1).1

/-- Decrypt `buffer` in place with Gimli AEAD: run the decryption pipeline,
verify the recomputed tag against the supplied one in constant time, and
return the plaintext on success or `AuthenticationFailed` on mismatch
(`src/aead_impl.rs`, `decrypt_in_place`). -/
def decrypt_in_place (key nonce ad buf tag : List Nat) :
    Except AuthenticationFailed (List Nat) :=
  if ctEq (decryptTag key nonce ad buf) tag then
    Except.ok (decryptPlain key nonce ad buf)
  else Except.error AuthenticationFailed.mk

/-! ## Hash (`src/hash_impl.rs`) -/

/-- One-shot `hash/gimli24v1`: absorb full blocks from the zero state, pad
the final (possibly empty) remainder with `0x1F` at the remainder length and
`0x80` at rate byte 15, permute, then squeeze two 16-byte rate blocks with a
permutation in between (`src/hash_impl.rs`, `hash`). -/
def hash (input : List Nat) : List Nat :=
  let a := absorbBlocks zeroState input
  let s2 := gimliBytes
    (xorByteAt (xorByteAt (xorInto a.1 a.2) a.2.length DOMAIN_XOF)
      (RATE - 1) PADDING_MARKER)
  s2.take RATE ++ (gimliBytes s2).take RATE

/-- Incremental hasher (`src/hash_impl.rs`, `Hasher`): the 48-byte state, a
16-byte internal buffer and the number of buffered bytes. -/
structure Hasher where
  state : List Nat
  buffer : List Nat
  buffer_len : Nat

/-- Rust `Hasher::new()`: zero state, zeroed empty buffer. -/
def Hasher.new : Hasher :=
  ⟨zeroState, List.replicate RATE 0, 0⟩

/-- The `while pos < data.len()` loop of `Hasher::update`
(`src/hash_impl.rs` lines 136-154): copy
`available = min(remaining, RATE - buffer_len)` bytes into the buffer, and
absorb the buffer into the state when it fills; `data.drop available` plays
the role of the advanced read position `pos`. When `buffer_len > RATE`
(a state unreachable from `Hasher::new`, see the buffer-length invariant)
the Rust loop makes no progress and never terminates; the model returns the
hasher unchanged in that one dead branch. -/
def updateGo (h : Hasher) (data : List Nat) : Hasher :=
  if hd : data = [] then h
  else
    let available := min data.length (RATE - h.buffer_len)
    let h1 : Hasher :=
      ⟨h.state,
       h.buffer.take h.buffer_len ++ data.take available ++
         h.buffer.drop (h.buffer_len + available),
       h.buffer_len + available⟩
    if hfull : h1.buffer_len = RATE then
      updateGo ⟨gimliBytes (xorInto h1.state h1.buffer), h1.buffer, 0⟩
        (data.drop available)
    else if ha : available = 0 then h
    else updateGo h1 (data.drop available)
termination_by data.length * 17 + h.buffer_len
decreasing_by
  · have hf : h.buffer_len + min data.length (16 - h.buffer_len) = 16 := hfull
    have hd2 : data.length ≠ 0 := fun hh => hd (List.length_eq_zero.mp hh)
    simp only [RATE, List.length_drop]
    omega
  · have hf : ¬h.buffer_len + min data.length (16 - h.buffer_len) = 16 := hfull
    have ha2 : min data.length (16 - h.buffer_len) ≠ 0 := ha
    have hd2 : data.length ≠ 0 := fun hh => hd (List.length_eq_zero.mp hh)
    simp only [RATE, List.length_drop]
    omega

/-- Rust `Hasher::update`. -/
def Hasher.update (h : Hasher) (data : List Nat) : Hasher := updateGo h data

/-- Rust `Hasher::finalize` (`src/hash_impl.rs` lines 158-180): absorb the
buffered `buffer_len` bytes, pad with `0x1F` at index `buffer_len` and
`0x80` at rate byte 15, permute, squeeze 32 bytes. -/
def Hasher.finalize (h : Hasher) : List Nat :=
  let s2 := gimliBytes
    (xorByteAt
      (xorByteAt (xorInto h.state (h.buffer.take h.buffer_len)) h.buffer_len
        DOMAIN_XOF)
      (RATE - 1) PADDING_MARKER)
  s2.take RATE ++ (gimliBytes s2).take RATE

/-- Rust `Reset for GimliHashCore` (`src/rustcrypto_hash.rs` lines 57-62):
`self.hasher = GimliHasher::new()` — the hasher is replaced by a fresh one. -/
def Hasher.reset (_h : Hasher) : Hasher := Hasher.new

/-! ## Specification-side definitions

The remaining definitions follow the wording of the specification claims —
blocks addressed by index, round schedule written as an explicit descending
fold — and are compared against the source-derived definitions above. -/

/-- The `i`-th 16-byte block of a message (spec wording: split the input
into 16-byte blocks). -/
def blockAt (msg : List Nat) (i : Nat) : List Nat := (msg.drop (RATE * i)).take RATE

/-- All full 16-byte blocks of a message, in order. -/
def fullBlocks (msg : List Nat) : List (List Nat) :=
  (List.range (msg.length / RATE)).map (blockAt msg)

/-- The remainder after the full blocks (length `0..15`). -/
def tailRem (msg : List Nat) : List Nat := msg.drop (RATE * (msg.length / RATE))

/-- Spec wording of one full-block absorption: XOR the block into the rate,
then apply `gimli`. -/
def specAbsorb (s b : List Nat) : List Nat := gimliBytes (xorInto s b)

/-- Spec wording of AEAD associated-data absorption (claim C5): each full
block XORed into the rate followed by `gimli`, then always a final absorb in
which the remainder is XORed in at offset 0, `0x01` is XORed into the rate
byte at the remainder length, `0x01` into state byte 47, and `gimli` runs. -/
def aadSpec (s ad : List Nat) : List Nat :=
  let t := (fullBlocks ad).foldl specAbsorb s
  let r := tailRem ad
  gimliBytes (xorByteAt (xorByteAt (xorInto t r) r.length 1) 47 1)

/-- Spec wording of the one-shot hash (claim C6): absorb the full blocks
from the all-zero state, absorb the final possibly-empty remainder with
`0x1F` at the remainder length and `0x80` at rate byte 15, apply `gimli`,
emit 16 state bytes, apply `gimli`, emit 16 more. -/
def hashSpec (input : List Nat) : List Nat :=
  let t := (fullBlocks input).foldl specAbsorb zeroState
  let r := tailRem input
  let s2 := gimliBytes (xorByteAt (xorByteAt (xorInto t r) r.length 0x1f) 15 0x80)
  s2.take 16 ++ (gimliBytes s2).take 16

/-- Spec wording of the SP-box on one column (claim C3):
`x = rotl(row0, 24)`, `y = rotl(row1, 9)`, `z = row2`;
`row2 := x XOR (z<<1) XOR ((y AND z)<<2)`,
`row1 := y XOR x XOR ((x OR z)<<1)`,
`row0 := z XOR y XOR ((x AND y)<<3)`. -/
def spColumnSpec (c : Nat) (s : List Nat) : List Nat :=
  let x := rotl32 (s.getD c 0) 24
  let y := rotl32 (s.getD (4 + c) 0) 9
  let z := s.getD (8 + c) 0
  ((s.set (8 + c) (x ^^^ shl32 z 1 ^^^ shl32 (y &&& z) 2)).set
      (4 + c) (y ^^^ x ^^^ shl32 (x ||| z) 1)).set
    c (z ^^^ y ^^^ shl32 (x &&& y) 3)

/-- Spec wording of the SP-box layer: applied to each of the 4 columns. -/
def spBoxSpec (s : List Nat) : List Nat :=
  (List.range 4).foldl (fun t c => spColumnSpec c t) s

/-- Small-swap on row 0: swap (col 0, col 1) and (col 2, col 3). -/
def smallSwapSpec (s : List Nat) : List Nat := listSwap (listSwap s 0 1) 2 3

/-- Big-swap on row 0: swap (col 0, col 2) and (col 1, col 3). -/
def bigSwapSpec (s : List Nat) : List Nat := listSwap (listSwap s 0 2) 1 3

/-- Spec wording of one Gimli round (claim C3): the SP-box layer on all four
columns, then when `round mod 4 == 0` the small-swap followed by XORing
`0x9E377900 OR round` into state word 0, and when `round mod 4 == 2` the
big-swap. -/
def roundSpec (round : Nat) (s : List Nat) : List Nat :=
  let s1 := spBoxSpec s
  let s2 :=
    if round % 4 = 0 then
      let sw := smallSwapSpec s1
      sw.set 0 (sw.getD 0 0 ^^^ (0x9e377900 ||| round))
    else s1
  if round % 4 = 2 then bigSwapSpec s2 else s2

/-- Spec wording of the full permutation (claim C3): exactly 24 rounds,
numbered 24 down to 1. -/
def gimliSpec (s : List Nat) : List Nat :=
  (List.range 24).foldl (fun t i => roundSpec (24 - i) t) s

/-! # Theorems -/

/-! ## Basic length and XOR lemmas -/

lemma length_xorInto (s d : List Nat) : (xorInto s d).length = s.length := by
  simp [xorInto]
  omega

lemma xorInto_nil (s : List Nat) : xorInto s [] = s := by
  simp [xorInto]

lemma length_xorByteAt (s : List Nat) (i v : Nat) :
    (xorByteAt s i v).length = s.length := by
  simp [xorByteAt]

lemma take_xorInto (s d : List Nat) (h : d.length ≤ s.length) :
    (xorInto s d).take d.length = List.zipWith Nat.xor (s.take d.length) d := by
  have hl : (List.zipWith Nat.xor (s.take d.length) d).length = d.length := by
    simp
    omega
  rw [xorInto, List.take_left' hl]

lemma drop_xorInto (s d : List Nat) (h : d.length ≤ s.length) :
    (xorInto s d).drop d.length = s.drop d.length := by
  have hl : (List.zipWith Nat.xor (s.take d.length) d).length = d.length := by
    simp
    omega
  rw [xorInto, List.drop_left' hl]

lemma zipWith_xor_cancel :
    ∀ (a b : List Nat), a.length = b.length →
      List.zipWith Nat.xor a (List.zipWith Nat.xor a b) = b
  | [], [], _ => rfl
  | x :: xs, y :: ys, h => by
    simp only [List.zipWith_cons_cons, List.cons.injEq]
    refine ⟨?_, zipWith_xor_cancel xs ys (by simpa using h)⟩
    show x ^^^ (x ^^^ y) = y
    rw [← Nat.xor_assoc, Nat.xor_self, Nat.zero_xor]

lemma length_wordsToBytes (ws : List Nat) : (wordsToBytes ws).length = 4 * ws.length := by
  induction ws with
  | nil => rfl
  | cons w t ih =>
    simp only [wordsToBytes, List.map_cons, List.flatten_cons, List.length_append] at *
    rw [ih]
    simp [wordToBytes]
    omega

lemma length_bytesToWords (bs : List Nat) : (bytesToWords bs).length = 12 := by
  simp [bytesToWords]

lemma length_spColumn (s : List Nat) (c : Nat) : (spColumn s c).length = s.length := by
  simp [spColumn]

lemma length_listSwap (s : List Nat) (i j : Nat) : (listSwap s i j).length = s.length := by
  simp [listSwap]

lemma length_gimliRound (r : Nat) (s : List Nat) : (gimliRound r s).length = s.length := by
  by_cases h0 : r % 4 = 0 <;> by_cases h2 : r % 4 = 2 <;>
    simp [gimliRound, h0, h2, length_spColumn, length_listSwap]

lemma length_gimliAux : ∀ (n : Nat) (s : List Nat), (gimliAux n s).length = s.length
  | 0, _ => rfl
  | n + 1, s => by
    rw [gimliAux, length_gimliAux n, length_gimliRound]

lemma length_gimli (s : List Nat) : (gimli s).length = s.length :=
  length_gimliAux ROUNDS s

lemma length_gimliBytes (bs : List Nat) : (gimliBytes bs).length = 48 := by
  rw [gimliBytes, length_wordsToBytes, length_gimli, length_bytesToWords]

/-! ## Block-loop fuel lemmas -/

lemma blockLoop_congr (step : List Nat → List Nat → List Nat × List Nat) :
    ∀ (f1 f2 : Nat) (s msg : List Nat), msg.length ≤ f1 → msg.length ≤ f2 →
      blockLoop step f1 s msg = blockLoop step f2 s msg := by
  intro f1
  induction f1 with
  | zero =>
    intro f2 s msg h1 h2
    have hm : msg = [] := List.length_eq_zero.mp (Nat.le_zero.mp h1)
    subst hm
    cases f2 with
    | zero => rfl
    | succ k => simp [blockLoop]
  | succ f ih =>
    intro f2 s msg h1 h2
    cases f2 with
    | zero =>
      have hm : msg = [] := List.length_eq_zero.mp (Nat.le_zero.mp h2)
      subst hm
      simp [blockLoop]
    | succ k =>
      by_cases hr : RATE ≤ msg.length
      · have hr16 : (16 : Nat) ≤ msg.length := hr
        simp only [blockLoop, if_pos hr]
        have hb1 : (msg.drop RATE).length ≤ f := by
          simp only [List.length_drop, RATE]
          omega
        have hb2 : (msg.drop RATE).length ≤ k := by
          simp only [List.length_drop, RATE]
          omega
        rw [ih k _ (msg.drop RATE) hb1 hb2]
      · simp only [blockLoop, if_neg hr]

lemma runBlocks_lt (step : List Nat → List Nat → List Nat × List Nat)
    (s msg : List Nat) (h : msg.length < RATE) :
    runBlocks step s msg = ([], msg, s) := by
  have h16 : ¬ RATE ≤ msg.length := by
    have h' : msg.length < 16 := h
    simp only [RATE]
    omega
  rw [runBlocks]
  cases hl : msg.length with
  | zero => rfl
  | succ k => simp [blockLoop, h16]

lemma runBlocks_ge (step : List Nat → List Nat → List Nat × List Nat)
    (s msg : List Nat) (h : RATE ≤ msg.length) :
    runBlocks step s msg =
      ((step s (msg.take RATE)).2 ++
          (runBlocks step (step s (msg.take RATE)).1 (msg.drop RATE)).1,
        (runBlocks step (step s (msg.take RATE)).1 (msg.drop RATE)).2.1,
        (runBlocks step (step s (msg.take RATE)).1 (msg.drop RATE)).2.2) := by
  have h16 : (16 : Nat) ≤ msg.length := h
  rw [runBlocks]
  obtain ⟨f, hf⟩ : ∃ f, msg.length = f + 1 := ⟨msg.length - 1, by omega⟩
  rw [hf]
  simp only [blockLoop, if_pos h]
  have hb1 : (msg.drop RATE).length ≤ f := by
    simp only [List.length_drop, RATE]
    omega
  rw [blockLoop_congr step f (msg.drop RATE).length _ (msg.drop RATE) hb1 le_rfl]
  rfl

/-! ## Claim C3: round structure of the permutation and the golden vector -/

lemma roundSpec_eq_gimliRound (r : Nat) (s : List Nat) :
    roundSpec r s = gimliRound r s := by
  by_cases h0 : r % 4 = 0 <;> by_cases h2 : r % 4 = 2
  · omega
  · simp [roundSpec, gimliRound, spBoxSpec, spColumnSpec, spColumn,
      smallSwapSpec, bigSwapSpec, h0, h2, List.range_succ]
  · simp [roundSpec, gimliRound, spBoxSpec, spColumnSpec, spColumn,
      smallSwapSpec, bigSwapSpec, h0, h2, List.range_succ]
  · simp [roundSpec, gimliRound, spBoxSpec, spColumnSpec, spColumn,
      smallSwapSpec, bigSwapSpec, h0, h2, List.range_succ]

lemma gimliAux_eq_foldl : ∀ (n : Nat) (s : List Nat),
    gimliAux n s = (List.range n).foldl (fun t i => gimliRound (n - i) t) s
  | 0, s => rfl
  | n + 1, s => by
    rw [gimliAux, gimliAux_eq_foldl n, List.range_succ_eq_map, List.foldl_cons,
      List.foldl_map]
    simp only [Nat.succ_sub_succ, Nat.sub_zero]

/-- Claim C3: the permutation applies exactly 24 rounds numbered 24 down
to 1, each round being the SP-box on the four columns followed by the
small-swap plus round-constant injection of `0x9E377900 OR round` when
`round mod 4 == 0` and the big-swap when `round mod 4 == 2`; and one
application of `gimli` maps the golden input state to the golden output. -/
theorem gimli_round_structure_and_golden_vector :
    (∀ s : List Nat, gimli s = gimliSpec s) ∧
    gimli [0x00000000, 0x9e3779ba, 0x3c6ef37a, 0xdaa66d46,
        0x78dde724, 0x1715611a, 0xb54cdb2e, 0x53845566,
        0xf1bbcfc8, 0x8ff34a5a, 0x2e2ac522, 0xcc624026] =
      [0xba11c85a, 0x91bad119, 0x380ce880, 0xd24c2c68,
       0x3eceffea, 0x277a921c, 0x4f73a0bd, 0xda5a9cd8,
       0x84b673f0, 0x34e52ff7, 0x9e2bef49, 0xf41bb8d6] := by
  refine ⟨fun s => ?_, by decide⟩
  show gimliAux 24 s = (List.range 24).foldl (fun t i => roundSpec (24 - i) t) s
  rw [show (fun (t : List Nat) (i : Nat) => roundSpec (24 - i) t) =
      (fun (t : List Nat) (i : Nat) => gimliRound (24 - i) t) from
    funext fun t => funext fun i => roundSpec_eq_gimliRound _ _]
  exact gimliAux_eq_foldl 24 s

/-! ## Claim C7: SIMD back-ends are bit-identical to the portable scalar -/

lemma exists_twelve (s : List Nat) (h : s.length = 12) :
    ∃ a0 a1 a2 a3 a4 a5 a6 a7 a8 a9 a10 a11 : Nat,
      s = [a0, a1, a2, a3, a4, a5, a6, a7, a8, a9, a10, a11] := by
  obtain _ | ⟨a0, s⟩ := s; · simp at h
  obtain _ | ⟨a1, s⟩ := s; · simp at h
  obtain _ | ⟨a2, s⟩ := s; · simp at h
  obtain _ | ⟨a3, s⟩ := s; · simp at h
  obtain _ | ⟨a4, s⟩ := s; · simp at h
  obtain _ | ⟨a5, s⟩ := s; · simp at h
  obtain _ | ⟨a6, s⟩ := s; · simp at h
  obtain _ | ⟨a7, s⟩ := s; · simp at h
  obtain _ | ⟨a8, s⟩ := s; · simp at h
  obtain _ | ⟨a9, s⟩ := s; · simp at h
  obtain _ | ⟨a10, s⟩ := s; · simp at h
  obtain _ | ⟨a11, s⟩ := s; · simp at h
  obtain _ | ⟨a12, s⟩ := s
  · exact ⟨a0, a1, a2, a3, a4, a5, a6, a7, a8, a9, a10, a11, rfl⟩
  · simp at h

lemma storeRows_loadRows (s : List Nat) (h : s.length = 12) :
    storeRows (loadRows s) = s := by
  obtain ⟨a0, a1, a2, a3, a4, a5, a6, a7, a8, a9, a10, a11, rfl⟩ :=
    exists_twelve s h
  rfl

lemma storeRows_sse2Round (r : Nat) (s : List Nat) (h : s.length = 12) :
    storeRows (sse2Round r (loadRows s)) = gimliRound r s := by
  obtain ⟨a0, a1, a2, a3, a4, a5, a6, a7, a8, a9, a10, a11, rfl⟩ :=
    exists_twelve s h
  by_cases h0 : r % 4 = 0 <;> by_cases h2 : r % 4 = 2
  · omega
  · simp [sse2Round, gimliRound, spColumn, listSwap, loadRows, storeRows,
      vxor, vand, vor, vshl, vshr, shuffle1032, shuffle2301, constVec,
      rotl32, h0, h2, Nat.xor_assoc, Nat.xor_zero]
  · simp [sse2Round, gimliRound, spColumn, listSwap, loadRows, storeRows,
      vxor, vand, vor, vshl, vshr, shuffle1032, shuffle2301, constVec,
      rotl32, h0, h2, Nat.xor_assoc, Nat.xor_zero]
  · simp [sse2Round, gimliRound, spColumn, listSwap, loadRows, storeRows,
      vxor, vand, vor, vshl, vshr, shuffle1032, shuffle2301, constVec,
      rotl32, h0, h2, Nat.xor_assoc, Nat.xor_zero]

lemma storeRows_neonRound (r : Nat) (s : List Nat) (h : s.length = 12) :
    storeRows (neonRound r (loadRows s)) = gimliRound r s := by
  obtain ⟨a0, a1, a2, a3, a4, a5, a6, a7, a8, a9, a10, a11, rfl⟩ :=
    exists_twelve s h
  by_cases h0 : r % 4 = 0 <;> by_cases h2 : r % 4 = 2
  · omega
  · simp [neonRound, gimliRound, spColumn, listSwap, loadRows, storeRows,
      vxor, vand, vor, vshl, vshr, shuffle1032, shuffle2301, constVec,
      rotl32, h0, h2, Nat.xor_assoc, Nat.xor_zero]
  · simp [neonRound, gimliRound, spColumn, listSwap, loadRows, storeRows,
      vxor, vand, vor, vshl, vshr, shuffle1032, shuffle2301, constVec,
      rotl32, h0, h2, Nat.xor_assoc, Nat.xor_zero]
  · simp [neonRound, gimliRound, spColumn, listSwap, loadRows, storeRows,
      vxor, vand, vor, vshl, vshr, shuffle1032, shuffle2301, constVec,
      rotl32, h0, h2, Nat.xor_assoc, Nat.xor_zero]

lemma sse2Round_commute (r : Nat) (s : List Nat) (h : s.length = 12) :
    sse2Round r (loadRows s) = loadRows (gimliRound r s) := by
  rw [← storeRows_sse2Round r s h]
  rfl

lemma neonRound_commute (r : Nat) (s : List Nat) (h : s.length = 12) :
    neonRound r (loadRows s) = loadRows (gimliRound r s) := by
  rw [← storeRows_neonRound r s h]
  rfl

lemma sse2Aux_loadRows : ∀ (n : Nat) (s : List Nat), s.length = 12 →
    sse2Aux n (loadRows s) = loadRows (gimliAux n s)
  | 0, _, _ => rfl
  | n + 1, s, h => by
    rw [sse2Aux, sse2Round_commute (n + 1) s h, gimliAux,
      sse2Aux_loadRows n _ (by rw [length_gimliRound, h])]

lemma neonAux_loadRows : ∀ (n : Nat) (s : List Nat), s.length = 12 →
    neonAux n (loadRows s) = loadRows (gimliAux n s)
  | 0, _, _ => rfl
  | n + 1, s, h => by
    rw [neonAux, neonRound_commute (n + 1) s h, gimliAux,
      neonAux_loadRows n _ (by rw [length_gimliRound, h])]

/-- Claim C7: on every 12-word (48-byte) state, the SSE2 and NEON back-ends
produce output bit-identical to the portable scalar implementation. -/
theorem simd_backends_match_portable (s : List Nat) (h : s.length = 12) :
    sse2Gimli s = gimli s ∧ neonGimli s = gimli s := by
  have h24 : (gimliAux 24 s).length = 12 := by rw [length_gimliAux, h]
  constructor
  · rw [sse2Gimli, sse2Aux_loadRows ROUNDS s h, gimli]
    exact storeRows_loadRows _ h24
  · rw [neonGimli, neonAux_loadRows ROUNDS s h, gimli]
    exact storeRows_loadRows _ h24

/-! ## Claims C5 and C6: sponge absorption structure -/

lemma fullBlocks_of_lt {msg : List Nat} (h : msg.length < RATE) :
    fullBlocks msg = [] := by
  simp [fullBlocks, Nat.div_eq_of_lt h]

lemma tailRem_of_lt {msg : List Nat} (h : msg.length < RATE) :
    tailRem msg = msg := by
  simp [tailRem, Nat.div_eq_of_lt h]

lemma fullBlocks_cons {msg : List Nat} (h : RATE ≤ msg.length) :
    fullBlocks msg = msg.take RATE :: fullBlocks (msg.drop RATE) := by
  have h16 : (16 : Nat) ≤ msg.length := h
  have hq : msg.length / RATE = (msg.drop RATE).length / RATE + 1 := by
    simp only [List.length_drop, RATE]
    omega
  have hhead : blockAt msg 0 = msg.take RATE := by
    simp [blockAt]
  have htail : List.map (blockAt msg ∘ Nat.succ)
      (List.range ((msg.drop RATE).length / RATE)) =
      List.map (blockAt (msg.drop RATE))
        (List.range ((msg.drop RATE).length / RATE)) := by
    apply List.map_congr_left
    intro i _
    have hmul : RATE * (i + 1) = RATE + RATE * i := by ring
    simp only [Function.comp_apply, blockAt, Nat.succ_eq_add_one]
    rw [List.drop_drop, hmul]
  rw [fullBlocks, hq, List.range_succ_eq_map, List.map_cons, List.map_map,
    hhead, htail, fullBlocks]

lemma tailRem_drop {msg : List Nat} (h : RATE ≤ msg.length) :
    tailRem msg = tailRem (msg.drop RATE) := by
  have h16 : (16 : Nat) ≤ msg.length := h
  have hq : msg.length / RATE = (msg.drop RATE).length / RATE + 1 := by
    simp only [List.length_drop, RATE]
    omega
  have hmul : RATE * ((msg.drop RATE).length / RATE + 1) =
      RATE + RATE * ((msg.drop RATE).length / RATE) := by ring
  rw [tailRem, tailRem, hq, hmul, List.drop_drop]

lemma absorbBlocks_lt {s msg : List Nat} (h : msg.length < RATE) :
    absorbBlocks s msg = (s, msg) := by
  rw [absorbBlocks, runBlocks_lt _ _ _ h]

lemma absorbStep_fst (s b : List Nat) : (absorbStep s b).1 = specAbsorb s b := by
  simp only [absorbStep, specAbsorb]

lemma absorbBlocks_ge {s msg : List Nat} (h : RATE ≤ msg.length) :
    absorbBlocks s msg =
      absorbBlocks (specAbsorb s (msg.take RATE)) (msg.drop RATE) := by
  rw [absorbBlocks, runBlocks_ge _ _ _ h, absorbBlocks, absorbStep_fst]

lemma absorbBlocks_eq_spec :
    ∀ (n : Nat) (msg s : List Nat), msg.length ≤ n →
      absorbBlocks s msg = ((fullBlocks msg).foldl specAbsorb s, tailRem msg) := by
  intro n
  induction n with
  | zero =>
    intro msg s h
    have hlt : msg.length < RATE := by
      have h0 : msg.length = 0 := Nat.le_zero.mp h
      rw [h0]
      decide
    rw [absorbBlocks_lt hlt, fullBlocks_of_lt hlt, tailRem_of_lt hlt,
      List.foldl_nil]
  | succ n ih =>
    intro msg s h
    by_cases hr : RATE ≤ msg.length
    · have h16 : (16 : Nat) ≤ msg.length := hr
      rw [absorbBlocks_ge hr, fullBlocks_cons hr, List.foldl_cons, tailRem_drop hr]
      exact ih (msg.drop RATE) _ (by simp only [List.length_drop, RATE]; omega)
    · have hlt : msg.length < RATE := Nat.not_le.mp hr
      rw [absorbBlocks_lt hlt, fullBlocks_of_lt hlt, tailRem_of_lt hlt,
        List.foldl_nil]

/-- Claim C5: AEAD associated-data absorption processes each full 16-byte
block by XOR into the rate followed by `gimli`, and then always performs the
final absorb — also for empty or 16-multiple associated data — XORing the
remainder at offset 0, `0x01` into the rate byte at the remainder length,
`0x01` into state byte 47, and applying `gimli`. -/
theorem aad_absorption_matches_spec (s ad : List Nat) :
    processAad s ad = aadSpec s ad := by
  rw [processAad, absorbBlocks_eq_spec ad.length ad s le_rfl]
  simp only [aadSpec, STATE_LAST_BYTE, STATE_SIZE]

/-- Claim C6: the one-shot hash starts from the all-zero state, absorbs the
full 16-byte blocks, pads the final possibly-empty remainder with `0x1F` at
the remainder length and `0x80` at rate byte 15, applies `gimli`, emits 16
state bytes, applies `gimli`, and emits 16 more; and the hash of the empty
input is the digest `b0634b2c...271f67`. -/
theorem hash_structure_and_empty_digest :
    (∀ input : List Nat, hash input = hashSpec input) ∧
    hash [] = [0xb0, 0x63, 0x4b, 0x2c, 0x0b, 0x08, 0x2a, 0xed,
      0xc5, 0xc0, 0xa2, 0xfe, 0x4e, 0xe3, 0xad, 0xcf,
      0xc9, 0x89, 0xec, 0x05, 0xde, 0x6f, 0x00, 0xad,
      0xdb, 0x04, 0xb3, 0xaa, 0xac, 0x27, 0x1f, 0x67] := by
  refine ⟨fun input => ?_, by decide⟩
  rw [hash, absorbBlocks_eq_spec input.length input zeroState le_rfl]
  simp only [hashSpec, DOMAIN_XOF, PADDING_MARKER, RATE]

/-! ## Claims C4 and C9: tag verification and the constant-time comparison -/

lemma lor_eq_zero_iff {x y : Nat} : x ||| y = 0 ↔ x = 0 ∧ y = 0 := by
  constructor
  · intro h
    have hb : ∀ i, x.testBit i = false ∧ y.testBit i = false := by
      intro i
      have h2 := congrArg (fun t => Nat.testBit t i) h
      simpa [Nat.testBit_or] using h2
    constructor
    · exact Nat.eq_of_testBit_eq fun i => by simp [(hb i).1, Nat.zero_testBit]
    · exact Nat.eq_of_testBit_eq fun i => by simp [(hb i).2, Nat.zero_testBit]
  · rintro ⟨rfl, rfl⟩
    rfl

lemma ctFold_snd : ∀ (a b : List Nat) (acc : Nat),
    (ctFold a b acc).2 = min a.length b.length
  | [], b, acc => by simp [ctFold]
  | x :: xs, [], acc => by simp [ctFold]
  | x :: xs, y :: ys, acc => by
    simp [ctFold, ctFold_snd xs ys, Nat.succ_min_succ]

lemma ctFold_fst_eq_zero : ∀ (a b : List Nat), a.length = b.length →
    ∀ acc : Nat, ((ctFold a b acc).1 = 0 ↔ acc = 0 ∧ a = b)
  | [], [], _, acc => by simp [ctFold]
  | [], y :: ys, h, acc => by simp at h
  | x :: xs, [], h, acc => by simp at h
  | x :: xs, y :: ys, h, acc => by
    simp only [ctFold]
    rw [ctFold_fst_eq_zero xs ys (by simpa using h), lor_eq_zero_iff,
      Nat.xor_eq_zero]
    simp [List.cons.injEq, and_assoc]

lemma ctEq_iff {a b : List Nat} : ctEq a b = true ↔ a = b := by
  rw [ctEq, ctEqTrace]
  by_cases h : a.length = b.length
  · rw [if_pos h]
    simp only [beq_iff_eq]
    rw [ctFold_fst_eq_zero a b h 0]
    simp
  · rw [if_neg h]
    constructor
    · intro hc
      simp at hc
    · intro hab
      exact absurd (congrArg List.length hab) h

lemma ctEqTrace_snd (a b : List Nat) :
    (ctEqTrace a b).2 = if a.length = b.length then min a.length b.length else 0 := by
  rw [ctEqTrace]
  by_cases h : a.length = b.length
  · rw [if_pos h, if_pos h]
    exact ctFold_snd a b 0
  · rw [if_neg h, if_neg h]

/-- Claim C4: `decrypt_in_place` returns `Ok` exactly when the 16-byte tag
recomputed from key, nonce, associated data and ciphertext equals the
supplied tag, and otherwise returns `AuthenticationFailed` — the only error
the core can produce; `encrypt_in_place` is total and always returns a
16-byte tag, it cannot fail. -/
theorem decrypt_ok_iff_recomputed_tag_matches (key nonce ad buf tag : List Nat) :
    decrypt_in_place key nonce ad buf tag =
      (if decryptTag key nonce ad buf = tag then
        Except.ok (decryptPlain key nonce ad buf)
      else Except.error AuthenticationFailed.mk) ∧
    (encrypt_in_place key nonce ad buf).2.length = TAG_SIZE := by
  constructor
  · rw [decrypt_in_place]
    by_cases h : decryptTag key nonce ad buf = tag
    · rw [if_pos (ctEq_iff.mpr h), if_pos h]
    · rw [if_neg (fun hc => h (ctEq_iff.mp hc)), if_neg h]
  · simp only [encrypt_in_place, encFinish]
    rw [List.length_take, length_gimliBytes]
    rfl

/-! ## Claim C1: AEAD round trip -/

lemma length_encStep_fst (s b : List Nat) : (encStep s b).1.length = 48 := by
  simp only [encStep]
  exact length_gimliBytes _

lemma length_encStep_snd (s b : List Nat) (hs : s.length = 48) :
    (encStep s b).2.length = RATE := by
  simp only [encStep]
  rw [List.length_take, length_xorInto, hs]
  decide

lemma decStep_encStep (s b : List Nat) (hs : s.length = 48) (hb : b.length = RATE) :
    decStep s ((encStep s b).2) = ((encStep s b).1, b) := by
  have h16 : b.length ≤ s.length := by
    rw [hs, hb]
    decide
  have htake : (encStep s b).2 = List.zipWith Nat.xor (s.take RATE) b := by
    simp only [encStep]
    rw [← hb, take_xorInto s b h16]
  have hstate : (encStep s b).2 ++ s.drop RATE = xorInto s b := by
    simp only [encStep]
    rw [← hb, ← drop_xorInto s b h16, List.take_append_drop]
  have h1 : gimliBytes ((encStep s b).2 ++ s.drop RATE) = (encStep s b).1 := by
    rw [hstate]
    simp only [encStep]
  have h2 : List.zipWith Nat.xor (s.take RATE) ((encStep s b).2) = b := by
    rw [htake]
    refine zipWith_xor_cancel _ _ ?_
    rw [List.length_take, hs, hb]
    decide
  simp only [decStep]
  rw [h1, h2]

lemma encDecBlocks : ∀ (n : Nat) (buf s x : List Nat), buf.length ≤ n →
    s.length = 48 → x.length < RATE →
    decBlocks s ((encBlocks s buf).1 ++ x) =
      (buf.take (encBlocks s buf).1.length, x, (encBlocks s buf).2.2) ∧
    (encBlocks s buf).2.1 = buf.drop (encBlocks s buf).1.length ∧
    (encBlocks s buf).2.2.length = 48 ∧
    (encBlocks s buf).2.1.length < RATE := by
  intro n
  induction n with
  | zero =>
    intro buf s x hn hs hx
    have hlt : buf.length < RATE := by
      have h0 : buf.length = 0 := Nat.le_zero.mp hn
      rw [h0]
      decide
    rw [encBlocks, runBlocks_lt _ _ _ hlt]
    dsimp only
    refine ⟨?_, ?_, hs, hlt⟩
    · rw [List.nil_append, decBlocks, runBlocks_lt _ _ _ hx]
      simp
    · simp
  | succ n ih =>
    intro buf s x hn hs hx
    by_cases hr : RATE ≤ buf.length
    · have hr16 : (16 : Nat) ≤ buf.length := hr
      have hbtake : (buf.take RATE).length = RATE := by
        rw [List.length_take]
        simp only [RATE]
        omega
      have hslen : ((encStep s (buf.take RATE)).1).length = 48 :=
        length_encStep_fst s (buf.take RATE)
      have hdn : (buf.drop RATE).length ≤ n := by
        simp only [List.length_drop, RATE]
        omega
      obtain ⟨ihdec, ihrem, ihst, ihremlen⟩ :=
        ih (buf.drop RATE) ((encStep s (buf.take RATE)).1) x hdn hslen hx
      rw [encBlocks, decBlocks] at ihdec
      rw [encBlocks] at ihrem ihst ihremlen
      have hclen : ((encStep s (buf.take RATE)).2).length = RATE :=
        length_encStep_snd s (buf.take RATE) hs
      rw [encBlocks, runBlocks_ge _ _ _ hr]
      dsimp only
      have htot : RATE ≤ ((encStep s (buf.take RATE)).2 ++
          ((runBlocks encStep ((encStep s (buf.take RATE)).1) (buf.drop RATE)).1 ++
            x)).length := by
        simp only [List.length_append, hclen]
        simp only [RATE]
        omega
      rw [decBlocks, List.append_assoc, runBlocks_ge _ _ _ htot,
        List.take_left' hclen, List.drop_left' hclen,
        decStep_encStep s (buf.take RATE) hs hbtake]
      dsimp only
      rw [ihdec]
      refine ⟨?_, ?_, ihst, ihremlen⟩
      · rw [List.length_append, hclen, List.take_add]
      · rw [ihrem, List.length_append, hclen, List.drop_drop]
    · have hlt : buf.length < RATE := Nat.not_le.mp hr
      rw [encBlocks, runBlocks_lt _ _ _ hlt]
      dsimp only
      refine ⟨?_, ?_, hs, hlt⟩
      · rw [List.nil_append, decBlocks, runBlocks_lt _ _ _ hx]
        simp
      · simp

lemma decFinish_encFinish (s r : List Nat) (hs : s.length = 48) (hr : r.length < RATE) :
    decFinish s ((encFinish s r).1) = (r, (encFinish s r).2) := by
  have hr16 : r.length < 16 := hr
  have hle : r.length ≤ s.length := by
    rw [hs]
    omega
  have hcr : (encFinish s r).1 = List.zipWith Nat.xor (s.take r.length) r := by
    simp only [encFinish]
    exact take_xorInto s r hle
  have hlen : (encFinish s r).1.length = r.length := by
    rw [hcr, List.length_zipWith, List.length_take]
    omega
  have hstate : (encFinish s r).1 ++ s.drop ((encFinish s r).1).length = xorInto s r := by
    rw [hlen, hcr, ← drop_xorInto s r hle, ← take_xorInto s r hle]
    exact List.take_append_drop _ _
  have htlen : (s.take r.length).length = r.length := by
    rw [List.length_take]
    omega
  simp only [decFinish]
  rw [hstate, hlen]
  simp only [Prod.mk.injEq]
  refine ⟨?_, ?_⟩
  · rw [hcr]
    exact zipWith_xor_cancel _ _ htlen
  · simp only [encFinish]

/-- Claim C1: for every 32-byte key, 16-byte nonce, associated data and
message buffer of any length, decrypting the buffer produced by
`encrypt_in_place` with the tag it returned succeeds and restores the
original message bytes. -/
theorem aead_round_trip (key nonce ad msg : List Nat)
    (hkey : key.length = KEY_SIZE) (hnonce : nonce.length = NONCE_SIZE) :
    decrypt_in_place key nonce ad
        (encrypt_in_place key nonce ad msg).1
        (encrypt_in_place key nonce ad msg).2 = Except.ok msg := by
  have hs0 : (processAad (initState key nonce) ad).length = 48 := by
    rw [processAad]
    exact length_gimliBytes _
  obtain ⟨_, _, hstlen, hremlen⟩ :=
    encDecBlocks msg.length msg (processAad (initState key nonce) ad) []
      le_rfl hs0 (by decide)
  have hremlen16 :
      (encBlocks (processAad (initState key nonce) ad) msg).2.1.length < 16 :=
    hremlen
  have hcrlen : ((encFinish (encBlocks (processAad (initState key nonce) ad) msg).2.2
      (encBlocks (processAad (initState key nonce) ad) msg).2.1).1).length < RATE := by
    simp only [encFinish]
    rw [List.length_take, length_xorInto, hstlen]
    show min _ 48 < 16
    omega
  obtain ⟨hdec, hrem, _, _⟩ :=
    encDecBlocks msg.length msg (processAad (initState key nonce) ad)
      ((encFinish (encBlocks (processAad (initState key nonce) ad) msg).2.2
        (encBlocks (processAad (initState key nonce) ad) msg).2.1).1)
      le_rfl hs0 hcrlen
  simp only [encrypt_in_place]
  simp only [decrypt_in_place]
  simp only [decryptTag]
  simp only [decryptPlain]
  rw [hdec]
  rw [decFinish_encFinish _ _ hstlen hremlen]
  dsimp only
  rw [if_pos (ctEq_iff.mpr rfl)]
  rw [hrem, List.take_append_drop]

/-- Claim C1, witness: a concrete 20-byte message with 3 bytes of associated
data encrypts and then decrypts back to itself. -/
theorem aead_round_trip_check :
    decrypt_in_place (List.replicate 32 1) (List.replicate 16 2) [1, 2, 3]
        (encrypt_in_place (List.replicate 32 1) (List.replicate 16 2) [1, 2, 3]
          (List.range 20)).1
        (encrypt_in_place (List.replicate 32 1) (List.replicate 16 2) [1, 2, 3]
          (List.range 20)).2 = Except.ok (List.range 20) :=
  aead_round_trip (List.replicate 32 1) (List.replicate 16 2) [1, 2, 3]
    (List.range 20) (by decide) (by decide)

/-- Claim C9: the tag comparison of `decrypt_in_place` runs in time
independent of the content of the compared byte strings — two comparisons
on inputs of the same lengths execute the same number of byte operations,
and on equal lengths every byte is inspected, with no short-circuit at the
first mismatch. -/
theorem tag_comparison_constant_time (a b a' b' : List Nat)
    (ha : a.length = a'.length) (hb : b.length = b'.length) :
    (ctEqTrace a b).2 = (ctEqTrace a' b').2 ∧
    (a.length = b.length → (ctEqTrace a b).2 = a.length) := by
  constructor
  · rw [ctEqTrace_snd, ctEqTrace_snd, ha, hb]
  · intro hab
    rw [ctEqTrace_snd, if_pos hab, ← hab, Nat.min_self]

/-- Claim C9, witness: comparing tags that differ in their first byte takes
exactly as many byte operations as comparing different equal-length tags,
and inspects all bytes. -/
theorem tag_comparison_constant_time_check :
    (ctEqTrace [0, 0] [1, 0]).2 = (ctEqTrace [5, 6] [7, 8]).2 ∧
    ([0, 0].length = [1, 0].length → (ctEqTrace [0, 0] [1, 0]).2 = [0, 0].length) :=
  tag_comparison_constant_time [0, 0] [1, 0] [5, 6] [7, 8] rfl rfl

/-- Claim C7, witness: both SIMD back-ends agree with the portable scalar on
the golden test-vector state. -/
theorem simd_backends_match_portable_check :
    sse2Gimli [0x00000000, 0x9e3779ba, 0x3c6ef37a, 0xdaa66d46,
        0x78dde724, 0x1715611a, 0xb54cdb2e, 0x53845566,
        0xf1bbcfc8, 0x8ff34a5a, 0x2e2ac522, 0xcc624026] =
      gimli [0x00000000, 0x9e3779ba, 0x3c6ef37a, 0xdaa66d46,
        0x78dde724, 0x1715611a, 0xb54cdb2e, 0x53845566,
        0xf1bbcfc8, 0x8ff34a5a, 0x2e2ac522, 0xcc624026] ∧
    neonGimli [0x00000000, 0x9e3779ba, 0x3c6ef37a, 0xdaa66d46,
        0x78dde724, 0x1715611a, 0xb54cdb2e, 0x53845566,
        0xf1bbcfc8, 0x8ff34a5a, 0x2e2ac522, 0xcc624026] =
      gimli [0x00000000, 0x9e3779ba, 0x3c6ef37a, 0xdaa66d46,
        0x78dde724, 0x1715611a, 0xb54cdb2e, 0x53845566,
        0xf1bbcfc8, 0x8ff34a5a, 0x2e2ac522, 0xcc624026] :=
  simd_backends_match_portable
    [0x00000000, 0x9e3779ba, 0x3c6ef37a, 0xdaa66d46,
     0x78dde724, 0x1715611a, 0xb54cdb2e, 0x53845566,
     0xf1bbcfc8, 0x8ff34a5a, 0x2e2ac522, 0xcc624026] (by decide)

/-! ## Claims C2, C8 and C10: the incremental hasher -/

lemma specAbsorb_def (s b : List Nat) : specAbsorb s b = gimliBytes (xorInto s b) := rfl

lemma absorbBlocks_append :
    ∀ (n : Nat) (a s b : List Nat), a.length ≤ n →
      absorbBlocks s (a ++ b) =
        absorbBlocks (absorbBlocks s a).1 ((absorbBlocks s a).2 ++ b) := by
  intro n
  induction n with
  | zero =>
    intro a s b hn
    have hlt : a.length < RATE := by
      have h0 : a.length = 0 := Nat.le_zero.mp hn
      rw [h0]
      decide
    rw [absorbBlocks_lt hlt]
  | succ n ih =>
    intro a s b hn
    by_cases hr : RATE ≤ a.length
    · have hr16 : (16 : Nat) ≤ a.length := hr
      have hab : RATE ≤ (a ++ b).length := by
        rw [List.length_append]
        simp only [RATE] at hr16 ⊢
        omega
      rw [absorbBlocks_ge hab, List.take_append_of_le_length hr,
        List.drop_append_of_le_length hr, absorbBlocks_ge hr]
      exact ih (a.drop RATE) _ b (by simp only [List.length_drop, RATE]; omega)
    · have hlt : a.length < RATE := Nat.not_le.mp hr
      rw [absorbBlocks_lt hlt]

lemma updateGo_nil (h : Hasher) : updateGo h [] = h := by
  rw [updateGo]
  simp

lemma updateGo_step_full (h : Hasher) (data : List Nat) (hd : data ≠ [])
    (hfull : h.buffer_len + min data.length (RATE - h.buffer_len) = RATE) :
    updateGo h data = updateGo
      ⟨gimliBytes (xorInto h.state
          (h.buffer.take h.buffer_len ++
            data.take (min data.length (RATE - h.buffer_len)) ++
            h.buffer.drop (h.buffer_len + min data.length (RATE - h.buffer_len)))),
        h.buffer.take h.buffer_len ++
          data.take (min data.length (RATE - h.buffer_len)) ++
          h.buffer.drop (h.buffer_len + min data.length (RATE - h.buffer_len)),
        0⟩
      (data.drop (min data.length (RATE - h.buffer_len))) := by
  rw [updateGo, dif_neg hd]
  dsimp only
  rw [dif_pos hfull]

lemma updateGo_step_buffered (h : Hasher) (data : List Nat) (hd : data ≠ [])
    (hnf : h.buffer_len + min data.length (RATE - h.buffer_len) ≠ RATE)
    (ha : min data.length (RATE - h.buffer_len) ≠ 0) :
    updateGo h data = updateGo
      ⟨h.state,
        h.buffer.take h.buffer_len ++
          data.take (min data.length (RATE - h.buffer_len)) ++
          h.buffer.drop (h.buffer_len + min data.length (RATE - h.buffer_len)),
        h.buffer_len + min data.length (RATE - h.buffer_len)⟩
      (data.drop (min data.length (RATE - h.buffer_len))) := by
  rw [updateGo, dif_neg hd]
  dsimp only
  rw [dif_neg hnf, dif_neg ha]

lemma updateGo_spec_nil (h : Hasher) (hbuf : h.buffer.length = 16)
    (hbl : h.buffer_len ≤ 15) :
    (updateGo h []).state =
      (absorbBlocks h.state (h.buffer.take h.buffer_len ++ [])).1 ∧
    (updateGo h []).buffer.take (updateGo h []).buffer_len =
      (absorbBlocks h.state (h.buffer.take h.buffer_len ++ [])).2 ∧
    (updateGo h []).buffer_len =
      (absorbBlocks h.state (h.buffer.take h.buffer_len ++ [])).2.length ∧
    (updateGo h []).buffer.length = 16 ∧
    (updateGo h []).buffer_len ≤ 15 := by
  have hplen : (h.buffer.take h.buffer_len).length = h.buffer_len := by
    rw [List.length_take, hbuf]
    omega
  have hlt : (h.buffer.take h.buffer_len).length < RATE := by
    rw [hplen]
    show _ < 16
    omega
  rw [updateGo_nil, List.append_nil, absorbBlocks_lt hlt]
  exact ⟨rfl, rfl, hplen.symm, hbuf, hbl⟩

lemma updateGo_spec :
    ∀ (n : Nat) (data : List Nat) (h : Hasher),
      data.length ≤ n → h.buffer.length = 16 → h.buffer_len ≤ 15 →
      (updateGo h data).state =
        (absorbBlocks h.state (h.buffer.take h.buffer_len ++ data)).1 ∧
      (updateGo h data).buffer.take (updateGo h data).buffer_len =
        (absorbBlocks h.state (h.buffer.take h.buffer_len ++ data)).2 ∧
      (updateGo h data).buffer_len =
        (absorbBlocks h.state (h.buffer.take h.buffer_len ++ data)).2.length ∧
      (updateGo h data).buffer.length = 16 ∧
      (updateGo h data).buffer_len ≤ 15 := by
  intro n
  induction n with
  | zero =>
    intro data h hn hbuf hbl
    have hdata : data = [] := List.length_eq_zero.mp (Nat.le_zero.mp hn)
    subst hdata
    exact updateGo_spec_nil h hbuf hbl
  | succ n ih =>
    intro data h hn hbuf hbl
    by_cases hd : data = []
    · subst hd
      exact updateGo_spec_nil h hbuf hbl
    have hL1 : 1 ≤ data.length := List.length_pos.mpr hd
    have hplen : (h.buffer.take h.buffer_len).length = h.buffer_len := by
      rw [List.length_take, hbuf]
      omega
    have hpend_take : (h.buffer.take h.buffer_len).take RATE = h.buffer.take h.buffer_len :=
      List.take_of_length_le (by rw [hplen]; show h.buffer_len ≤ 16; omega)
    have hpend_drop : (h.buffer.take h.buffer_len).drop RATE = [] :=
      List.drop_eq_nil_of_le (by rw [hplen]; show h.buffer_len ≤ 16; omega)
    by_cases hfull : h.buffer_len + min data.length (RATE - h.buffer_len) = RATE
    · -- the internal buffer fills to exactly 16 bytes: absorb it and recurse
      rw [updateGo_step_full h data hd hfull]
      have hfull16 : h.buffer_len + min data.length (16 - h.buffer_len) = 16 := hfull
      have hdropnil : h.buffer.drop
          (h.buffer_len + min data.length (RATE - h.buffer_len)) = [] := by
        apply List.drop_eq_nil_of_le
        rw [hbuf, hfull]
      rw [hdropnil, List.append_nil]
      have hBlen : (h.buffer.take h.buffer_len ++
          data.take (min data.length (RATE - h.buffer_len))).length = 16 := by
        rw [List.length_append, hplen, List.length_take]
        simp only [RATE]
        omega
      have hn2 : (data.drop (min data.length (RATE - h.buffer_len))).length ≤ n := by
        simp only [List.length_drop, RATE]
        omega
      obtain ⟨ih1, ih2, ih3, ih4, ih5⟩ :=
        ih (data.drop (min data.length (RATE - h.buffer_len)))
          ⟨gimliBytes (xorInto h.state
              (h.buffer.take h.buffer_len ++
                data.take (min data.length (RATE - h.buffer_len)))),
            h.buffer.take h.buffer_len ++
              data.take (min data.length (RATE - h.buffer_len)),
            0⟩
          hn2 hBlen (by dsimp only; omega)
      simp only [List.take_zero, List.nil_append] at ih1 ih2 ih3
      have hge : RATE ≤ (h.buffer.take h.buffer_len ++ data).length := by
        rw [List.length_append, hplen]
        simp only [RATE]
        omega
      have havfull : min data.length (RATE - h.buffer_len) = RATE - h.buffer_len := by
        simp only [RATE]
        omega
      have htake : (h.buffer.take h.buffer_len ++ data).take RATE =
          h.buffer.take h.buffer_len ++
            data.take (min data.length (RATE - h.buffer_len)) := by
        rw [List.take_append_eq_append_take, hpend_take, hplen, havfull]
      have hdrop : (h.buffer.take h.buffer_len ++ data).drop RATE =
          data.drop (min data.length (RATE - h.buffer_len)) := by
        rw [List.drop_append_eq_append_drop, hpend_drop, hplen, havfull,
          List.nil_append]
      rw [absorbBlocks_ge hge, htake, hdrop, specAbsorb_def]
      exact ⟨ih1, ih2, ih3, ih4, ih5⟩
    · -- the data is entirely buffered without filling the buffer
      have hne0 : min data.length (RATE - h.buffer_len) ≠ 0 := by
        simp only [RATE]
        omega
      rw [updateGo_step_buffered h data hd hfull hne0]
      have hfull16 : ¬h.buffer_len + min data.length (16 - h.buffer_len) = 16 := hfull
      have havL : min data.length (RATE - h.buffer_len) = data.length := by
        simp only [RATE]
        omega
      have havL16 : min data.length (16 - h.buffer_len) = data.length := havL
      have hblL : h.buffer_len + data.length < 16 := by
        omega
      rw [havL, List.take_length, List.drop_length, updateGo_nil]
      have hlt2 : (h.buffer.take h.buffer_len ++ data).length < RATE := by
        rw [List.length_append, hplen]
        show _ < 16
        omega
      rw [absorbBlocks_lt hlt2]
      dsimp only
      refine ⟨rfl, ?_, ?_, ?_, ?_⟩
      · refine List.take_left' ?_
        rw [List.length_append, hplen]
      · rw [List.length_append, hplen]
      · rw [List.length_append, List.length_append, hplen, List.length_drop, hbuf]
        omega
      · omega

lemma foldl_update_spec :
    ∀ (chunks : List (List Nat)) (h : Hasher),
      h.buffer.length = 16 → h.buffer_len ≤ 15 →
      (List.foldl Hasher.update h chunks).state =
        (absorbBlocks h.state (h.buffer.take h.buffer_len ++ chunks.flatten)).1 ∧
      (List.foldl Hasher.update h chunks).buffer.take
          (List.foldl Hasher.update h chunks).buffer_len =
        (absorbBlocks h.state (h.buffer.take h.buffer_len ++ chunks.flatten)).2 ∧
      (List.foldl Hasher.update h chunks).buffer_len =
        (absorbBlocks h.state (h.buffer.take h.buffer_len ++ chunks.flatten)).2.length ∧
      (List.foldl Hasher.update h chunks).buffer.length = 16 ∧
      (List.foldl Hasher.update h chunks).buffer_len ≤ 15
  | [], h, hbuf, hbl => by
    rw [List.foldl_nil, List.flatten_nil]
    have hspec := updateGo_spec_nil h hbuf hbl
    rw [updateGo_nil] at hspec
    exact hspec
  | c :: cs, h, hbuf, hbl => by
    rw [List.foldl_cons]
    obtain ⟨u1, u2, u3, u4, u5⟩ := updateGo_spec c.length c h le_rfl hbuf hbl
    simp only [Hasher.update]
    obtain ⟨f1, f2, f3, f4, f5⟩ := foldl_update_spec cs (updateGo h c) u4 u5
    have hcomp : absorbBlocks (updateGo h c).state
        ((updateGo h c).buffer.take (updateGo h c).buffer_len ++ cs.flatten) =
        absorbBlocks h.state (h.buffer.take h.buffer_len ++ (c :: cs).flatten) := by
      rw [u1, u2, List.flatten_cons, ← List.append_assoc,
        absorbBlocks_append (h.buffer.take h.buffer_len ++ c).length _ _ _ le_rfl]
    rw [hcomp] at f1 f2 f3
    exact ⟨f1, f2, f3, f4, f5⟩

lemma finalize_foldl_eq_hash (chunks : List (List Nat)) :
    (List.foldl Hasher.update Hasher.new chunks).finalize = hash chunks.flatten := by
  obtain ⟨f1, f2, f3, _, _⟩ := foldl_update_spec chunks Hasher.new
    (by simp [Hasher.new]) (by simp [Hasher.new])
  simp only [Hasher.new, List.take_zero, List.nil_append] at f1 f2 f3
  simp only [Hasher.finalize, hash, Hasher.new]
  rw [f1, f2, f3]

/-- Claim C2: for every way of splitting an input into chunks, feeding the
chunks to a fresh `Hasher` through `update` and then calling `finalize`
yields exactly the digest of the one-shot `hash` of the whole input. -/
theorem incremental_hash_matches_one_shot (chunks : List (List Nat)) :
    (List.foldl Hasher.update Hasher.new chunks).finalize = hash chunks.flatten :=
  finalize_foldl_eq_hash chunks

/-- Claim C8: `reset` returns a hasher to its initial state — whatever was
absorbed before, every subsequent sequence of updates followed by `finalize`
produces the same digest as on a freshly created hasher, namely the one-shot
hash of the data fed after the reset. -/
theorem reset_restores_initial_state (h : Hasher) (chunks : List (List Nat)) :
    (List.foldl Hasher.update (Hasher.reset h) chunks).finalize =
      (List.foldl Hasher.update Hasher.new chunks).finalize ∧
    (List.foldl Hasher.update (Hasher.reset h) chunks).finalize =
      hash chunks.flatten :=
  ⟨rfl, finalize_foldl_eq_hash chunks⟩

/-- Claim C10: after any sequence of `update` calls on a fresh hasher the
buffer length satisfies `buffer_len ≤ 15 < RATE`, so the `0x1F`
domain-separation XOR of `finalize` at index `buffer_len` always lands
inside the 16-byte rate region. -/
theorem hasher_buffer_len_invariant (chunks : List (List Nat)) :
    (List.foldl Hasher.update Hasher.new chunks).buffer_len ≤ 15 ∧
    (List.foldl Hasher.update Hasher.new chunks).buffer_len < RATE := by
  obtain ⟨_, _, _, _, f5⟩ := foldl_update_spec chunks Hasher.new
    (by simp [Hasher.new]) (by simp [Hasher.new])
  refine ⟨f5, ?_⟩
  show _ < 16
  omega

end GimliCrypto

